import Mathlib

/-!
Verification of the `temp-email-guard` core: the reversed-label domain trie
(`src/utils/trie.ts`), the email classifier and recency cache (`src/index.ts`)
and the merge/validation phase of the domain loader (`src/data/loader.ts`).

Strings are modelled as `List Char`; JavaScript's `toLowerCase` is modelled on
the ASCII range (the same range the repository's domain data uses), matching
Lean's `Char.toLower`.
-/

/-- Convenience: the character list of a string literal. -/
def str (s : String) : List Char := s.data

/-- Model of `domain.toLowerCase()` (ASCII range), character-wise `Char.toLower`. -/
def lower (s : List Char) : List Char := s.map Char.toLower

/-- Model of JavaScript `s.split('.')`: splits at every dot, keeping empty
pieces, and returns `[[]]` on the empty string. -/
def splitDot : List Char → List (List Char)
  | [] => [[]]
  | c :: cs =>
    if c = '.' then [] :: splitDot cs
    else
      match splitDot cs with
      | [] => [[c]]
      | l :: ls => (c :: l) :: ls

/-! ## The trie (`src/utils/trie.ts`)

A `TrieNode` holds a mapping from label to child node plus a terminal flag.
The JavaScript `Map` is modelled as an insertion-ordered association list with
unique keys: `findChild` is first-match lookup, `setChild` replaces the entry
in place or appends a new one, exactly like `Map.get` / `Map.set`. -/

inductive TrieNode where
  | node (children : List (List Char × TrieNode)) (isEnd : Bool)

def TrieNode.children : TrieNode → List (List Char × TrieNode)
  | .node cs _ => cs

def TrieNode.isEnd : TrieNode → Bool
  | .node _ e => e

/-- `Map.get`: first (unique) matching entry. -/
def findChild : List (List Char × TrieNode) → List Char → Option TrieNode
  | [], _ => none
  | (k, v) :: rest, key => if k = key then some v else findChild rest key

/-- `Map.set`: replace the entry for the key in place, else append. -/
def setChild : List (List Char × TrieNode) → List Char → TrieNode → List (List Char × TrieNode)
  | [], key, v => [(key, v)]
  | (k, w) :: rest, key, v =>
    if k = key then (key, v) :: rest else (k, w) :: setChild rest key v

def emptyNode : TrieNode := .node [] false

/-- Core of `insert`: walk/create nodes along the (already reversed) label
list and mark the final node terminal. -/
def insertParts : TrieNode → List (List Char) → TrieNode
  | .node cs _, [] => .node cs true
  | .node cs e, p :: rest =>
    let child := (findChild cs p).getD emptyNode
    .node (setChild cs p (insertParts child rest)) e

/-- `insert(domain)`: lowercase, split on dots, reverse, insert. -/
def DomainTrie.insert (t : TrieNode) (domain : List Char) : TrieNode :=
  insertParts t ((splitDot (lower domain)).reverse)

/-- Inner loop of `hasDomain` for one starting offset: follow labels from the
node; return true on any terminal node reached strictly below the start node;
if a label has no child ("break"), report the current node's terminal flag. -/
def walkFrom : TrieNode → List (List Char) → Bool
  | t, [] => t.isEnd
  | t, p :: rest =>
    match findChild t.children p with
    | none => t.isEnd
    | some child => child.isEnd || walkFrom child rest

/-- Outer loop of `hasDomain`: try every starting offset `0 ≤ start < length`,
i.e. every nonempty suffix of the reversed label list. -/
def tryOffsets : TrieNode → List (List Char) → Bool
  | _, [] => false
  | t, p :: rest => walkFrom t (p :: rest) || tryOffsets t rest

/-- `hasDomain(domain)`: lowercase, split, reverse, try all offsets. -/
def DomainTrie.hasDomain (t : TrieNode) (domain : List Char) : Bool :=
  tryOffsets t ((splitDot (lower domain)).reverse)

/-- `DomainTrie.fromDomains`: insert every domain into an empty trie. -/
def DomainTrie.fromDomains (domains : List (List Char)) : TrieNode :=
  domains.foldl DomainTrie.insert emptyNode

/-- Exact label path membership: walking exactly `parts` from `t` lands on a
terminal node. -/
def lookupEnd : TrieNode → List (List Char) → Bool
  | t, [] => t.isEnd
  | t, p :: rest =>
    match findChild t.children p with
    | none => false
    | some child => lookupEnd child rest

/-! ## Email classifier (`src/index.ts`) -/

/-- One character of the `[^\s@]` class of `EMAIL_REGEX`. -/
def isEmailChar (c : Char) : Bool := !c.isWhitespace && !(c == '@')

/-- Acceptance of the sub-pattern `[^\s@]+\.[^\s@]+` (anchored on the whole
list): some dot position with a nonempty all-`[^\s@]` run on each side. -/
def tailMatch (l : List Char) : Bool :=
  (List.range l.length).any (fun i =>
    !(l.take i).isEmpty && (l.take i).all isEmailChar && (l.get? i == some '.')
      && !(l.drop (i + 1)).isEmpty && (l.drop (i + 1)).all isEmailChar)

/-- Acceptance of `EMAIL_REGEX = /^[^\s@]+@[^\s@]+\.[^\s@]+$/`: some `@`
position with a nonempty all-`[^\s@]` run before it and a `tailMatch` rest. -/
def EMAIL_REGEX_test (s : List Char) : Bool :=
  (List.range s.length).any (fun i =>
    !(s.take i).isEmpty && (s.take i).all isEmailChar && (s.get? i == some '@')
      && tailMatch (s.drop (i + 1)))

/-- Declarative reading of `EMAIL_REGEX`: a decomposition
`local @ b . c` with nonempty `[^\s@]`-only pieces. -/
def RegexSpec (s : List Char) : Prop :=
  ∃ a b c : List Char, s = a ++ '@' :: (b ++ '.' :: c) ∧ a ≠ [] ∧ b ≠ [] ∧ c ≠ [] ∧
    a.all isEmailChar = true ∧ b.all isEmailChar = true ∧ c.all isEmailChar = true

/-- Modelled from the spec's words for claim C2 only (to be compared with the
code's `EMAIL_REGEX`): "exactly one `@`, nonempty local part, nonempty domain
part containing at least one `.`". -/
def specStructuralOk (s : List Char) : Bool :=
  (s.count '@' == 1) && !(s.takeWhile (fun c => !(c == '@'))).isEmpty
    && !((s.dropWhile (fun c => !(c == '@'))).drop 1).isEmpty
    && ((s.dropWhile (fun c => !(c == '@'))).drop 1).contains '.'

/-- The module-level mutable state of `src/index.ts` (plus the loader's
`cachedDomains` from `src/data/loader.ts`). -/
structure GuardState where
  tempSet : Option (List (List Char))
  tempTrie : Option TrieNode
  tempArray : Option (List (List Char))
  domainCache : List (List Char × Bool)
  cachedDomains : Option (List (List Char))

def MAX_CACHE_SIZE : Nat := 1000

/-- `Map.get` on the insertion-ordered domain cache. -/
def mapGet (m : List (List Char × Bool)) (k : List Char) : Option Bool :=
  match m with
  | [] => none
  | (k', v) :: rest => if k' = k then some v else mapGet rest k

/-- `Map.set`: update the entry in place if the key exists, else append. -/
def mapSet : List (List Char × Bool) → List Char → Bool → List (List Char × Bool)
  | [], k, v => [(k, v)]
  | (k', w) :: rest, k, v =>
    if k' = k then (k, v) :: rest else (k', w) :: mapSet rest k v

/-- `cacheResult`: evict the oldest-inserted entry when at capacity, then set. -/
def cacheResult (cache : List (List Char × Bool)) (domain : List Char) (result : Bool) :
    List (List Char × Bool) :=
  let cache' := if MAX_CACHE_SIZE ≤ cache.length then cache.drop 1 else cache
  mapSet cache' domain result

/-- `initializeDomains`: build the accelerator set, the trie and the array. -/
def initializeDomains (st : GuardState) (domains : List (List Char)) : GuardState :=
  { st with tempSet := some domains,
            tempTrie := some (DomainTrie.fromDomains domains),
            tempArray := some domains }

/-- JavaScript `String.prototype.trim` (ASCII whitespace model). -/
def trimChars (l : List Char) : List Char :=
  ((l.dropWhile Char.isWhitespace).reverse.dropWhile Char.isWhitespace).reverse

/-- Body of `isTempEmail` after the initialization guard: extract the domain
after `@`, consult the cache, then the set, then the trie, and cache the
verdict. -/
def isTempEmailBody (st : GuardState) (domainsSet : List (List Char))
    (domainsTrie : TrieNode) (email : List Char) : Bool × GuardState :=
  match email.findIdx? (fun c => c == '@') with
  | none => (false, st)
  | some atIndex =>
    if atIndex = email.length - 1 then (false, st)
    else
      let domain := trimChars (lower (email.drop (atIndex + 1)))
      if domain.isEmpty then (false, st)
      else
        match mapGet st.domainCache domain with
        | some v => (v, st)
        | none =>
          let result :=
            if domainsSet.contains domain then true
            else DomainTrie.hasDomain domainsTrie domain
          (result, { st with domainCache := cacheResult st.domainCache domain result })

/-- `isTempEmail`: early exit on empty input; lazily initialize from the
loader cache when the structures are absent (returning `false` when the loader
cache is also absent); then run the body. -/
def isTempEmail (st : GuardState) (email : List Char) : Bool × GuardState :=
  if email.isEmpty then (false, st)
  else
    match st.tempSet, st.tempTrie with
    | some s, some t => isTempEmailBody st s t email
    | _, _ =>
      match st.cachedDomains with
      | none => (false, st)
      | some cached =>
          isTempEmailBody (initializeDomains st cached) cached
            (DomainTrie.fromDomains cached) email

structure ValidationResult where
  isValid : Bool
  isTempEmail : Bool
  error : Option String
deriving DecidableEq

/-- `validateEmail`: required-input check, then the `EMAIL_REGEX` structural
check, then the temp-email verdict. -/
def validateEmail (st : GuardState) (email : List Char) : ValidationResult × GuardState :=
  if email.isEmpty then
    ({ isValid := false, isTempEmail := false,
       error := some "Email is required and must be a string" }, st)
  else if EMAIL_REGEX_test email then
    let r := isTempEmail st email
    ({ isValid := true, isTempEmail := r.1,
       error := if r.1 then some "Email is from a temporary email service" else none }, r.2)
  else
    ({ isValid := false, isTempEmail := false, error := some "Invalid email format" }, st)

/-! ## Domain loader merge phase (`src/data/loader.ts`)

The network fetches are IO; `fetchDomains` is modelled on the already-fetched
per-source domain lists, embedding the merge / normalize / validate /
deduplicate / sort phase and the final emptiness check. -/

/-- `normalizeDomain`: lowercase, trim, strip an `http(s)://` scheme and a
leading `www.`, and cut at the first `/`, `?` or `#`. -/
def normalizeDomain (domain : List Char) : List Char :=
  let s1 := trimChars (lower domain)
  let s2 := if (str "https://").isPrefixOf s1 then s1.drop 8
            else if (str "http://").isPrefixOf s1 then s1.drop 7 else s1
  let s3 := if (str "www.").isPrefixOf s2 then s2.drop 4 else s2
  ((s3.takeWhile (fun c => !(c == '/'))).takeWhile (fun c => !(c == '?'))).takeWhile
    (fun c => !(c == '#'))

/-- A character of the regex class `[a-z0-9]` under the `/i` flag. -/
def isRegexAlnum (c : Char) : Bool :=
  (('a' ≤ c.toLower) && (c.toLower ≤ 'z')) || (('0' ≤ c) && (c ≤ '9'))

/-- A character of the regex class `[a-z]` under the `/i` flag. -/
def isRegexAlpha (c : Char) : Bool := ('a' ≤ c.toLower) && (c.toLower ≤ 'z')

/-- Acceptance of one `[a-z0-9]([a-z0-9\-]{0,61}[a-z0-9])?` label of the
domain regex: a single alphanumeric, or alphanumerics at both ends with at
most 61 alphanumeric-or-hyphen characters between. -/
def labelShape : List Char → Bool
  | [] => false
  | c :: rest =>
    isRegexAlnum c &&
      (rest.isEmpty ||
        (decide (rest.length ≤ 62) &&
          rest.dropLast.all (fun x => isRegexAlnum x || x == '-') &&
          (match rest.getLast? with
           | some x => isRegexAlnum x
           | none => false)))

/-- Acceptance of the trailing `[a-z]{2,}` of the domain regex. -/
def tldShape (l : List Char) : Bool := decide (2 ≤ l.length) && l.all isRegexAlpha

/-- Acceptance of the full domain regex
`/^L(\.L)*\.T$/i` with `L` the label shape and `T` the TLD shape, read off the
dot decomposition (neither `L` nor `T` may contain a dot). -/
def domainRegexTest (d : List Char) : Bool :=
  let labels := splitDot d
  !labels.dropLast.isEmpty && labels.dropLast.all labelShape &&
    (match labels.getLast? with
     | some lastL => tldShape lastL
     | none => false)

/-- `isValidDomain`: length, dot, boundary-dot, space and regex checks. -/
def isValidDomain (domain : List Char) : Bool :=
  decide (3 ≤ domain.length) && domain.contains '.' &&
    !(domain.head? == some '.') && !(domain.getLast? == some '.') &&
    !(domain.contains ' ') && domainRegexTest domain

/-- The `Set`-based deduplication, keeping first occurrences in order. -/
def dedupKeepFirst (l : List (List Char)) : List (List Char) :=
  l.foldl (fun acc x => if acc.contains x then acc else acc ++ [x]) []

/-- Lexicographic string order of the default JavaScript `Array.sort`. -/
def strLe : List Char → List Char → Bool
  | [], _ => true
  | _ :: _, [] => false
  | x :: xs, y :: ys => if x = y then strLe xs ys else decide (x < y)

def insertSorted (x : List Char) : List (List Char) → List (List Char)
  | [] => [x]
  | y :: ys => if strLe x y then x :: y :: ys else y :: insertSorted x ys

def sortStrings : List (List Char) → List (List Char)
  | [] => []
  | x :: xs => insertSorted x (sortStrings xs)

/-- The merged, normalized, validated, deduplicated domain sequence that
`fetchDomains` builds from all sources. -/
def mergedValidated (sources : List (List (List Char))) : List (List Char) :=
  dedupKeepFirst ((sources.flatten.map normalizeDomain).filter isValidDomain)

/-- `fetchDomains` (merge phase): sort the merged set and fail on emptiness. -/
def fetchDomains (sources : List (List (List Char))) : Except String (List (List Char)) :=
  let merged := sortStrings (mergedValidated sources)
  if merged.isEmpty then Except.error "No domains could be loaded from any source"
  else Except.ok merged

/-- `initialize` / `ensureDomainsLoaded` over the fetch path: load the merged
domains (recording them in the loader cache) and build the structures. -/
def initializeFromSources (st : GuardState) (sources : List (List (List Char))) :
    Except String GuardState :=
  match fetchDomains sources with
  | .error e => .error e
  | .ok domains => .ok (initializeDomains { st with cachedDomains := some domains } domains)

inductive CacheOp where
  | put (domain : List Char) (result : Bool)
  | lookup (domain : List Char)

def applyCacheOp (cache : List (List Char × Bool)) : CacheOp → List (List Char × Bool)
  | .put d r => cacheResult cache d r
  | .lookup _ => cache

def applyCacheOps (cache : List (List Char × Bool)) (ops : List CacheOp) :
    List (List Char × Bool) :=
  ops.foldl applyCacheOp cache

/-- `acceleratedSet.contains`: membership test on the exact-match accelerator
set (`TEMP_EMAIL_DOMAINS_SET.has`). -/
def acceleratedSetHas (st : GuardState) (d : List Char) : Bool :=
  match st.tempSet with
  | some ds => ds.contains d
  | none => false

/-! ## Lemmas -/

theorem splitDot_ne_nil (s : List Char) : splitDot s ≠ [] := by
  induction s with
  | nil => simp [splitDot]
  | cons c cs ih =>
    simp only [splitDot]
    split
    · simp
    · split
      · simp
      · simp

theorem splitDot_append_dot (a b : List Char) :
    splitDot (a ++ '.' :: b) = splitDot a ++ splitDot b := by
  induction a with
  | nil => simp [splitDot]
  | cons c cs ih =>
    by_cases hc : c = '.'
    · subst hc
      simp [splitDot, ih]
    · have h1 : splitDot (c :: cs ++ '.' :: b)
          = match splitDot (cs ++ '.' :: b) with
            | [] => [[c]]
            | l :: ls => (c :: l) :: ls := by
        simp [splitDot, hc]
      have h2 : splitDot (c :: cs)
          = match splitDot cs with
            | [] => [[c]]
            | l :: ls => (c :: l) :: ls := by
        simp [splitDot, hc]
      rcases hcs : splitDot cs with _ | ⟨l, ls⟩
      · exact absurd hcs (splitDot_ne_nil cs)
      · rw [h1, h2, hcs, ih, hcs]
        simp

/-! ### Trie correctness lemmas -/

theorem findChild_setChild_self (cs : List (List Char × TrieNode)) (k : List Char) (v : TrieNode) :
    findChild (setChild cs k v) k = some v := by
  induction cs with
  | nil => simp [setChild, findChild]
  | cons hd rest ih =>
    obtain ⟨k', w⟩ := hd
    by_cases h : k' = k
    · simp [setChild, findChild, h]
    · simp [setChild, findChild, h, ih]

theorem findChild_setChild_ne (cs : List (List Char × TrieNode)) (k a : List Char) (v : TrieNode)
    (h : a ≠ k) : findChild (setChild cs k v) a = findChild cs a := by
  have hka : ¬(k = a) := fun hh => h hh.symm
  induction cs with
  | nil => simp [setChild, findChild, hka]
  | cons hd rest ih =>
    obtain ⟨k', w⟩ := hd
    by_cases hk : k' = k
    · subst hk
      simp [setChild, findChild, hka]
    · simp [setChild, findChild, hk, ih]

theorem isEnd_insertParts (t : TrieNode) (l : List (List Char)) :
    (insertParts t l).isEnd = (if l = [] then true else t.isEnd) := by
  obtain ⟨cs, e⟩ := t
  cases l with
  | nil => simp [insertParts, TrieNode.isEnd]
  | cons p rest => simp [insertParts, TrieNode.isEnd]

theorem lookupEnd_emptyNode (m : List (List Char)) : lookupEnd emptyNode m = false := by
  cases m with
  | nil => rfl
  | cons a rest => simp [lookupEnd, emptyNode, TrieNode.children, findChild]

theorem lookupEnd_insertParts (l : List (List Char)) (t : TrieNode) (m : List (List Char)) :
    lookupEnd (insertParts t l) m = (decide (m = l) || lookupEnd t m) := by
  induction l generalizing t m with
  | nil =>
    obtain ⟨cs, e⟩ := t
    cases m with
    | nil => simp [insertParts, lookupEnd, TrieNode.isEnd]
    | cons a m' => simp [insertParts, lookupEnd, TrieNode.children]
  | cons p l' ih =>
    obtain ⟨cs, e⟩ := t
    cases m with
    | nil => simp [insertParts, lookupEnd, TrieNode.isEnd]
    | cons a m' =>
      by_cases hap : a = p
      · subst hap
        have hfind : findChild (setChild cs a (insertParts ((findChild cs a).getD emptyNode) l')) a
            = some (insertParts ((findChild cs a).getD emptyNode) l') :=
          findChild_setChild_self cs a _
        simp only [insertParts, lookupEnd, TrieNode.children, hfind, ih]
        cases hc : findChild cs a with
        | none => simp [hc, lookupEnd_emptyNode]
        | some c => simp [hc]
      · have hfind : findChild (setChild cs p (insertParts ((findChild cs p).getD emptyNode) l')) a
            = findChild cs a := findChild_setChild_ne cs p a _ hap
        simp only [insertParts, lookupEnd, TrieNode.children, hfind]
        have : (a :: m' = p :: l') = False := by simp [hap]
        simp [this]

theorem lookupEnd_foldl (ds : List (List Char)) (t : TrieNode) (m : List (List Char)) :
    lookupEnd (ds.foldl DomainTrie.insert t) m
      = (ds.any (fun x => decide ((splitDot (lower x)).reverse = m)) || lookupEnd t m) := by
  induction ds generalizing t with
  | nil => simp
  | cons x ds' ih =>
    simp only [List.foldl_cons, List.any_cons, ih, DomainTrie.insert, lookupEnd_insertParts]
    cases h : decide ((splitDot (lower x)).reverse = m) with
    | true =>
      have := of_decide_eq_true h
      simp [this]
    | false =>
      have hne := of_decide_eq_false h
      have : decide (m = (splitDot (lower x)).reverse) = false :=
        decide_eq_false (fun hh => hne hh.symm)
      simp [this, h, Bool.or_comm, Bool.or_assoc]

theorem lookupEnd_fromDomains (ds : List (List Char)) (m : List (List Char)) :
    lookupEnd (DomainTrie.fromDomains ds) m
      = ds.any (fun x => decide ((splitDot (lower x)).reverse = m)) := by
  simp [DomainTrie.fromDomains, lookupEnd_foldl, lookupEnd_emptyNode]

theorem isEnd_foldl (ds : List (List Char)) (t : TrieNode) :
    (ds.foldl DomainTrie.insert t).isEnd = t.isEnd := by
  induction ds generalizing t with
  | nil => rfl
  | cons x ds' ih =>
    have hne : (splitDot (lower x)).reverse ≠ [] := by
      intro h
      exact splitDot_ne_nil (lower x) (by simpa using congrArg List.reverse h)
    simp [List.foldl_cons, ih, DomainTrie.insert, isEnd_insertParts, hne]

theorem fromDomains_isEnd (ds : List (List Char)) :
    (DomainTrie.fromDomains ds).isEnd = false := by
  rw [DomainTrie.fromDomains, isEnd_foldl]
  rfl

/-- Local helper: one step of `lookupEnd` through an existing child. -/
theorem lookupEnd_cons_of_find (t : TrieNode) (a : List Char) (c : TrieNode)
    (hf : findChild t.children a = some c) (p : List (List Char)) :
    lookupEnd t (a :: p) = lookupEnd c p := by
  simp [lookupEnd, hf]

theorem walkFrom_eq_true_iff (s : List (List Char)) (t : TrieNode) :
    walkFrom t s = true ↔
      (∃ p, p ≠ [] ∧ p <+: s ∧ lookupEnd t p = true) ∨
      (t.isEnd = true ∧ (s = [] ∨ ∃ a s', s = a :: s' ∧ findChild t.children a = none)) := by
  induction s generalizing t with
  | nil =>
    simp only [walkFrom]
    constructor
    · intro h
      exact Or.inr ⟨h, by simp⟩
    · rintro (⟨p, hne, hpre, _⟩ | ⟨h, _⟩)
      · exact absurd (List.prefix_nil.mp hpre) hne
      · exact h
  | cons a s' ih =>
    cases hf : findChild t.children a with
    | none =>
      simp only [walkFrom, hf]
      constructor
      · intro h
        exact Or.inr ⟨h, Or.inr ⟨a, s', rfl, hf⟩⟩
      · rintro (⟨p, hne, hpre, hend⟩ | ⟨h, _⟩)
        · cases p with
          | nil => exact absurd rfl hne
          | cons b p' =>
            obtain ⟨hb, _⟩ := List.cons_prefix_cons.mp hpre
            subst hb
            simp [lookupEnd, hf] at hend
        · exact h
    | some c =>
      simp only [walkFrom, hf, Bool.or_eq_true, ih]
      constructor
      · rintro (hc | ⟨p, hne, hpre, hend⟩ | ⟨hc, _⟩)
        · exact Or.inl ⟨[a], by simp, ⟨s', rfl⟩, by simp [lookupEnd, hf, hc]⟩
        · exact Or.inl ⟨a :: p, by simp, List.cons_prefix_cons.mpr ⟨rfl, hpre⟩,
            by rw [lookupEnd_cons_of_find t a c hf]; exact hend⟩
        · exact Or.inl ⟨[a], by simp, ⟨s', rfl⟩, by simp [lookupEnd, hf, hc]⟩
      · rintro (⟨p, hne, hpre, hend⟩ | ⟨_, (h | ⟨b, s'', hs, hfb⟩)⟩)
        · cases p with
          | nil => exact absurd rfl hne
          | cons b p' =>
            obtain ⟨hb, hpre'⟩ := List.cons_prefix_cons.mp hpre
            subst hb
            rw [lookupEnd_cons_of_find t b c hf] at hend
            cases p' with
            | nil => exact Or.inl (by simpa [lookupEnd] using hend)
            | cons q p'' => exact Or.inr (Or.inl ⟨q :: p'', by simp, hpre', hend⟩)
        · exact absurd h (by simp)
        · rw [List.cons.injEq] at hs
          rw [hs.1] at hf
          rw [hf] at hfb
          exact absurd hfb (by simp)

theorem tryOffsets_eq_true_iff (parts : List (List Char)) (t : TrieNode) :
    tryOffsets t parts = true ↔ ∃ s, s ≠ [] ∧ s <:+ parts ∧ walkFrom t s = true := by
  induction parts with
  | nil =>
    simp only [tryOffsets]
    constructor
    · intro h
      exact absurd h (by simp)
    · rintro ⟨s, hne, hsuf, _⟩
      exact absurd (List.suffix_nil.mp hsuf) hne
  | cons a rest ih =>
    simp only [tryOffsets, Bool.or_eq_true, ih]
    constructor
    · rintro (h | ⟨s, hne, hsuf, hw⟩)
      · exact ⟨a :: rest, by simp, List.suffix_refl _, h⟩
      · exact ⟨s, hne, (List.suffix_cons_iff.mpr (Or.inr hsuf)), hw⟩
    · rintro ⟨s, hne, hsuf, hw⟩
      rcases List.suffix_cons_iff.mp hsuf with h | h
      · subst h
        exact Or.inl hw
      · exact Or.inr ⟨s, hne, h, hw⟩

/-- Hand-rolled: a list is an infix of `y` iff it is a prefix of some suffix of `y`. -/
theorem infixIffSuffixPrefix {α : Type} (x y : List α) :
    x <:+: y ↔ ∃ s, s <:+ y ∧ x <+: s := by
  constructor
  · rintro ⟨s, t, rfl⟩
    exact ⟨x ++ t, ⟨s, by rw [List.append_assoc]⟩, ⟨t, rfl⟩⟩
  · rintro ⟨s, ⟨u, rfl⟩, ⟨v, rfl⟩⟩
    exact ⟨u, v, by rw [List.append_assoc]⟩

theorem infixOfReverse {α : Type} (x y : List α) (h : x <:+: y) :
    x.reverse <:+: y.reverse := by
  obtain ⟨s, t, rfl⟩ := h
  exact ⟨t.reverse, s.reverse, by simp⟩

theorem reverseInfixIff {α : Type} (x y : List α) :
    x.reverse <:+: y.reverse ↔ x <:+: y := by
  constructor
  · intro h
    have := infixOfReverse x.reverse y.reverse h
    simpa using this
  · exact infixOfReverse x y

/-- Main characterization of `hasDomain` over a trie built with `fromDomains`:
the query matches iff the (lowercased) label sequence of some inserted domain
occurs as a contiguous block inside the (lowercased) label sequence of the
query. -/
theorem hasDomain_iff (ds : List (List Char)) (d : List Char) :
    DomainTrie.hasDomain (DomainTrie.fromDomains ds) d = true ↔
      ∃ x ∈ ds, splitDot (lower x) <:+: splitDot (lower d) := by
  unfold DomainTrie.hasDomain
  rw [tryOffsets_eq_true_iff]
  constructor
  · rintro ⟨s, hsne, hsuf, hw⟩
    rw [walkFrom_eq_true_iff] at hw
    rcases hw with ⟨p, hpne, hpre, hend⟩ | ⟨habs, _⟩
    · rw [lookupEnd_fromDomains] at hend
      rw [List.any_eq_true] at hend
      obtain ⟨x, hx, hdec⟩ := hend
      have hrev := of_decide_eq_true hdec
      refine ⟨x, hx, ?_⟩
      rw [← reverseInfixIff]
      rw [infixIffSuffixPrefix]
      exact ⟨s, hsuf, hrev ▸ hpre⟩
    · rw [fromDomains_isEnd] at habs
      exact absurd habs (by simp)
  · rintro ⟨x, hx, hinf⟩
    rw [← reverseInfixIff, infixIffSuffixPrefix] at hinf
    obtain ⟨s, hsuf, hpre⟩ := hinf
    have hpne : (splitDot (lower x)).reverse ≠ [] := by
      intro h
      exact splitDot_ne_nil (lower x) (by simpa using congrArg List.reverse h)
    have hsne : s ≠ [] := by
      rintro rfl
      exact hpne (List.prefix_nil.mp hpre)
    refine ⟨s, hsne, hsuf, ?_⟩
    rw [walkFrom_eq_true_iff]
    refine Or.inl ⟨(splitDot (lower x)).reverse, hpne, hpre, ?_⟩
    rw [lookupEnd_fromDomains, List.any_eq_true]
    exact ⟨x, hx, by simp⟩

/-! ### Regex bridge lemmas -/

theorem get_len_append {α : Type} (a : List α) (x : α) (b : List α) :
    (a ++ x :: b).get? a.length = some x := by
  induction a with
  | nil => rfl
  | cons y ys ih => exact ih

theorem drop_len_succ_append {α : Type} (a : List α) (x : α) (b : List α) :
    (a ++ x :: b).drop (a.length + 1) = b := by
  induction a with
  | nil => rfl
  | cons y ys ih => exact ih

theorem decomp_of_get {α : Type} (l : List α) (i : Nat) (x : α)
    (h : l.get? i = some x) : l = l.take i ++ x :: l.drop (i + 1) := by
  induction l generalizing i with
  | nil => simp [List.get?] at h
  | cons y ys ih =>
    cases i with
    | zero =>
      simp only [List.get?] at h
      cases h
      simp
    | succ j =>
      simp only [List.get?] at h
      have := ih j h
      simp only [List.take, List.drop, List.cons_append, List.cons.injEq, true_and]
      exact this

theorem tailMatch_iff (l : List Char) :
    tailMatch l = true ↔ ∃ b c : List Char, l = b ++ '.' :: c ∧ b ≠ [] ∧ c ≠ [] ∧
      b.all isEmailChar = true ∧ c.all isEmailChar = true := by
  unfold tailMatch
  rw [List.any_eq_true]
  constructor
  · rintro ⟨i, hmem, hcond⟩
    simp only [Bool.and_eq_true, Bool.not_eq_true', List.isEmpty_eq_false, beq_iff_eq] at hcond
    obtain ⟨⟨⟨⟨h1, h2⟩, h3⟩, h4⟩, h5⟩ := hcond
    exact ⟨l.take i, l.drop (i + 1), decomp_of_get l i '.' h3, h1, h4, h2, h5⟩
  · rintro ⟨b, c, rfl, hb, hc, hab, hac⟩
    refine ⟨b.length, ?_, ?_⟩
    · rw [List.mem_range]
      simp only [List.length_append, List.length_cons]
      omega
    · simp only [Bool.and_eq_true, Bool.not_eq_true', List.isEmpty_eq_false, beq_iff_eq]
      rw [List.take_left, get_len_append, drop_len_succ_append]
      exact ⟨⟨⟨⟨hb, hab⟩, rfl⟩, hc⟩, hac⟩

theorem EMAIL_REGEX_iff (s : List Char) : EMAIL_REGEX_test s = true ↔ RegexSpec s := by
  unfold EMAIL_REGEX_test RegexSpec
  rw [List.any_eq_true]
  constructor
  · rintro ⟨i, hmem, hcond⟩
    simp only [Bool.and_eq_true, Bool.not_eq_true', List.isEmpty_eq_false, beq_iff_eq] at hcond
    obtain ⟨⟨⟨h1, h2⟩, h3⟩, h4⟩ := hcond
    rw [tailMatch_iff] at h4
    obtain ⟨b, c, hdec, hb, hc, hab, hac⟩ := h4
    exact ⟨s.take i, b, c, by rw [← hdec]; exact decomp_of_get s i '@' h3, h1, hb, hc, h2, hab, hac⟩
  · rintro ⟨a, b, c, rfl, ha, hb, hc, haa, hab, hac⟩
    refine ⟨a.length, ?_, ?_⟩
    · rw [List.mem_range]
      simp only [List.length_append, List.length_cons]
      omega
    · simp only [Bool.and_eq_true, Bool.not_eq_true', List.isEmpty_eq_false, beq_iff_eq]
      rw [List.take_left, get_len_append, drop_len_succ_append]
      refine ⟨⟨⟨ha, haa⟩, rfl⟩, ?_⟩
      rw [tailMatch_iff]
      exact ⟨b, c, rfl, hb, hc, hab, hac⟩

/-! ### Cache lemmas -/

theorem mapSet_length (m : List (List Char × Bool)) (k : List Char) (v : Bool) :
    (mapSet m k v).length
      = if m.any (fun p => decide (p.1 = k)) then m.length else m.length + 1 := by
  induction m with
  | nil => simp [mapSet]
  | cons p rest ih =>
    obtain ⟨k', w⟩ := p
    by_cases hk : k' = k
    · subst hk
      simp [mapSet]
    · simp only [mapSet, if_neg hk, List.length_cons, ih, List.any_cons]
      have : decide ((k', w).1 = k) = false := by simp [hk]
      rw [this]
      simp only [Bool.false_or]
      split
      · rfl
      · rfl

theorem cacheResult_length_le (cache : List (List Char × Bool)) (d : List Char) (r : Bool)
    (h : cache.length ≤ MAX_CACHE_SIZE) :
    (cacheResult cache d r).length ≤ MAX_CACHE_SIZE := by
  have hM : (1 : Nat) ≤ MAX_CACHE_SIZE := by decide
  unfold cacheResult
  by_cases hfull : MAX_CACHE_SIZE ≤ cache.length
  · rw [if_pos hfull, mapSet_length]
    have hlen : (cache.drop 1).length = cache.length - 1 := by simp
    split
    · omega
    · omega
  · rw [if_neg hfull, mapSet_length]
    split
    · omega
    · omega

/-- An operation on the recency cache: a verdict insertion (`cacheResult`) or
a pure lookup. -/
theorem applyCacheOps_length_le (ops : List CacheOp) (cache : List (List Char × Bool))
    (h : cache.length ≤ MAX_CACHE_SIZE) :
    (applyCacheOps cache ops).length ≤ MAX_CACHE_SIZE := by
  induction ops generalizing cache with
  | nil => exact h
  | cons op rest ih =>
    cases op with
    | put d r => exact ih _ (cacheResult_length_le _ _ _ h)
    | lookup d => exact ih _ h

theorem mapGet_mapSet_self (m : List (List Char × Bool)) (k : List Char) (v : Bool) :
    mapGet (mapSet m k v) k = some v := by
  induction m with
  | nil => simp [mapSet, mapGet]
  | cons p rest ih =>
    obtain ⟨k', w⟩ := p
    by_cases hk : k' = k
    · simp [mapSet, hk, mapGet]
    · simp [mapSet, hk, mapGet, ih]

theorem mapGet_cacheResult_self (cache : List (List Char × Bool)) (d : List Char) (r : Bool) :
    mapGet (cacheResult cache d r) d = some r := by
  unfold cacheResult
  exact mapGet_mapSet_self _ d r

/-! ### Frame and idempotence lemmas for `isTempEmail` -/

theorem isTempEmailBody_frame (st : GuardState) (S : List (List Char)) (T : TrieNode)
    (email : List Char) :
    (isTempEmailBody st S T email).2.tempSet = st.tempSet ∧
    (isTempEmailBody st S T email).2.tempTrie = st.tempTrie ∧
    (isTempEmailBody st S T email).2.tempArray = st.tempArray ∧
    (isTempEmailBody st S T email).2.cachedDomains = st.cachedDomains := by
  unfold isTempEmailBody
  cases email.findIdx? (fun c => c == '@') with
  | none => exact ⟨rfl, rfl, rfl, rfl⟩
  | some atIndex =>
    by_cases hlast : atIndex = email.length - 1
    · simp [hlast]
    · simp only [if_neg hlast]
      by_cases hdom : (trimChars (lower (email.drop (atIndex + 1)))).isEmpty
      · simp [hdom]
      · simp only [hdom, if_false]
        cases mapGet st.domainCache (trimChars (lower (email.drop (atIndex + 1)))) with
        | some v => exact ⟨rfl, rfl, rfl, rfl⟩
        | none => exact ⟨rfl, rfl, rfl, rfl⟩

theorem isTempEmailBody_repeat (st : GuardState) (S : List (List Char)) (T : TrieNode)
    (email : List Char) :
    (isTempEmailBody (isTempEmailBody st S T email).2 S T email).1
      = (isTempEmailBody st S T email).1 := by
  unfold isTempEmailBody
  cases hidx : email.findIdx? (fun c => c == '@') with
  | none => rfl
  | some atIndex =>
    by_cases hlast : atIndex = email.length - 1
    · simp [hlast]
    · simp only [if_neg hlast]
      by_cases hdom : (trimChars (lower (email.drop (atIndex + 1)))).isEmpty
      · simp [hdom]
      · simp only [hdom, if_false]
        cases hget : mapGet st.domainCache (trimChars (lower (email.drop (atIndex + 1)))) with
        | some v => simp [hget]
        | none =>
          simp only [hget]
          simp [mapGet_cacheResult_self]

/-! ### Loader lemmas -/

theorem char_toLower_toLower (c : Char) : c.toLower.toLower = c.toLower := by
  unfold Char.toLower
  by_cases h : c.toNat ≥ 65 ∧ c.toNat ≤ 90
  · rw [if_pos h]
    have hval : (Char.ofNat (c.toNat + 32)).toNat = c.toNat + 32 := by
      have hv : (c.toNat + 32).isValidChar := by
        left
        omega
      rw [Char.ofNat, dif_pos hv]
      rfl
    rw [if_neg]
    rw [hval]
    omega
  · rw [if_neg h, if_neg h]

theorem mem_trimChars {c : Char} {l : List Char} (h : c ∈ trimChars l) : c ∈ l := by
  unfold trimChars at h
  rw [List.mem_reverse] at h
  have h1 := (List.dropWhile_sublist (l := (l.dropWhile Char.isWhitespace).reverse)
    (p := Char.isWhitespace)).subset h
  rw [List.mem_reverse] at h1
  exact (List.dropWhile_sublist (l := l) (p := Char.isWhitespace)).subset h1

theorem mem_takeWhile_sub {c : Char} {p : Char → Bool} {l : List Char}
    (h : c ∈ l.takeWhile p) : c ∈ l :=
  (List.takeWhile_sublist p).subset h

theorem mem_drop_sub {c : Char} {n : Nat} {l : List Char} (h : c ∈ l.drop n) : c ∈ l :=
  (List.drop_sublist n l).subset h

theorem mem_stripWww {c : Char} {s : List Char}
    (h : c ∈ (if (str "www.").isPrefixOf s then s.drop 4 else s)) : c ∈ s := by
  split at h
  · exact mem_drop_sub h
  · exact h

theorem mem_stripScheme {c : Char} {s : List Char}
    (h : c ∈ (if (str "https://").isPrefixOf s then s.drop 8
        else if (str "http://").isPrefixOf s then s.drop 7 else s)) : c ∈ s := by
  split at h
  · exact mem_drop_sub h
  · split at h
    · exact mem_drop_sub h
    · exact h

theorem mem_normalizeDomain {c : Char} {x : List Char} (h : c ∈ normalizeDomain x) :
    c ∈ lower x := by
  unfold normalizeDomain at h
  simp only [] at h
  replace h := mem_takeWhile_sub h
  replace h := mem_takeWhile_sub h
  replace h := mem_takeWhile_sub h
  replace h := mem_stripWww h
  replace h := mem_stripScheme h
  exact mem_trimChars h

theorem normalizeDomain_lower_fixed (x : List Char) :
    lower (normalizeDomain x) = normalizeDomain x := by
  have hfix : ∀ c ∈ normalizeDomain x, c.toLower = c := by
    intro c hc
    obtain ⟨b, _, rfl⟩ := List.mem_map.mp (mem_normalizeDomain hc)
    exact char_toLower_toLower b
  calc lower (normalizeDomain x)
      = (normalizeDomain x).map id := List.map_congr_left hfix
    _ = normalizeDomain x := List.map_id _

theorem mem_dedup_foldl (l acc : List (List Char)) (a : List Char)
    (h : a ∈ l.foldl (fun acc x => if acc.contains x then acc else acc ++ [x]) acc) :
    a ∈ acc ∨ a ∈ l := by
  induction l generalizing acc with
  | nil => exact Or.inl h
  | cons y ys ih =>
    simp only [List.foldl_cons] at h
    rcases ih _ h with hacc | hys
    · split at hacc
      · exact Or.inl hacc
      · rw [List.mem_append] at hacc
        rcases hacc with h1 | h1
        · exact Or.inl h1
        · simp only [List.mem_singleton] at h1
          exact Or.inr (h1 ▸ List.mem_cons_self _ _)
    · exact Or.inr (List.mem_cons_of_mem _ hys)

theorem mem_of_mem_dedupKeepFirst {a : List Char} {l : List (List Char)}
    (h : a ∈ dedupKeepFirst l) : a ∈ l := by
  rcases mem_dedup_foldl l [] a h with h1 | h1
  · simp at h1
  · exact h1

theorem dedup_foldl_acc_mem (l acc : List (List Char)) (a : List Char) (h : a ∈ acc) :
    a ∈ l.foldl (fun acc x => if acc.contains x then acc else acc ++ [x]) acc := by
  induction l generalizing acc with
  | nil => exact h
  | cons y ys ih =>
    simp only [List.foldl_cons]
    apply ih
    split
    · exact h
    · exact List.mem_append_left _ h

theorem dedupKeepFirst_eq_nil_iff (l : List (List Char)) :
    dedupKeepFirst l = [] ↔ l = [] := by
  constructor
  · intro h
    cases l with
    | nil => rfl
    | cons y ys =>
      have hy : y ∈ dedupKeepFirst (y :: ys) := by
        unfold dedupKeepFirst
        simp only [List.foldl_cons]
        apply dedup_foldl_acc_mem
        simp [List.contains]
      rw [h] at hy
      simp at hy
  · rintro rfl
    rfl

theorem mem_insertSorted (x a : List Char) (l : List (List Char)) :
    a ∈ insertSorted x l ↔ a = x ∨ a ∈ l := by
  induction l with
  | nil => simp [insertSorted]
  | cons y ys ih =>
    unfold insertSorted
    split
    · simp
    · simp only [List.mem_cons, ih]
      tauto

theorem mem_sortStrings (a : List Char) (l : List (List Char)) :
    a ∈ sortStrings l ↔ a ∈ l := by
  induction l with
  | nil => simp [sortStrings]
  | cons y ys ih =>
    unfold sortStrings
    rw [mem_insertSorted]
    simp [ih]

theorem insertSorted_ne_nil (x : List Char) (l : List (List Char)) :
    insertSorted x l ≠ [] := by
  cases l with
  | nil => simp [insertSorted]
  | cons y ys =>
    unfold insertSorted
    split
    · simp
    · simp

theorem sortStrings_eq_nil_iff (l : List (List Char)) :
    sortStrings l = [] ↔ l = [] := by
  cases l with
  | nil => simp [sortStrings]
  | cons y ys =>
    unfold sortStrings
    constructor
    · intro h
      exact absurd h (insertSorted_ne_nil _ _)
    · intro h
      exact absurd h (by simp)

/-- Every domain delivered by the loader's merge phase is lowercase-stable. -/
theorem fetchDomains_lower_fixed (sources : List (List (List Char))) (l : List (List Char))
    (h : fetchDomains sources = Except.ok l) : ∀ D ∈ l, lower D = D := by
  intro D hD
  unfold fetchDomains at h
  simp only [] at h
  split at h
  · cases h
  · cases h
    rw [mem_sortStrings] at hD
    have h1 := mem_of_mem_dedupKeepFirst hD
    rw [List.mem_filter] at h1
    obtain ⟨h2, _⟩ := h1
    obtain ⟨x, _, rfl⟩ := List.mem_map.mp h2
    exact normalizeDomain_lower_fixed x

-- sanity checks
example : DomainTrie.hasDomain (DomainTrie.fromDomains [str "example.com"]) (str "example.com") = true := by decide
example : DomainTrie.hasDomain (DomainTrie.fromDomains [str "example.com"]) (str "sub.example.com") = true := by decide
example : DomainTrie.hasDomain (DomainTrie.fromDomains [str "example.com"]) (str "example") = false := by decide
example : DomainTrie.hasDomain (DomainTrie.fromDomains [str "example.com"]) (str "notexample.com") = false := by decide
example : DomainTrie.hasDomain (DomainTrie.fromDomains [str "example.com"]) (str "example.com.evil") = true := by decide
example : DomainTrie.hasDomain (DomainTrie.fromDomains [str "Example.COM"]) (str "ExAmPlE.CoM") = true := by decide
example : EMAIL_REGEX_test (str "user@example.com") = true := by decide
example : EMAIL_REGEX_test (str "a@b.") = false := by decide
example : EMAIL_REGEX_test (str "a@.b") = false := by decide
example : EMAIL_REGEX_test (str "a b@c.d") = false := by decide
example : specStructuralOk (str "a@b.") = true := by decide
example : isValidDomain (str "example.com") = true := by decide
example : isValidDomain (str "ex") = false := by decide
example : isValidDomain (str ".com") = false := by decide
example : normalizeDomain (str "HTTPS://www.Example.com/path?q#f") = str "example.com" := by decide
example : fetchDomains [[str "b.com", str "a.com"], [str "b.com"]]
    = Except.ok [str "a.com", str "b.com"] := by rfl
example : fetchDomains [[str "##"]] = Except.error "No domains could be loaded from any source" := by rfl
example : (isTempEmail ⟨some [str "temp.com"], some (DomainTrie.fromDomains [str "temp.com"]),
    some [str "temp.com"], [], some [str "temp.com"]⟩ (str "a@temp.com")).1 = true := by decide
example : (isTempEmail ⟨none, none, none, [], some [str "temp.com"]⟩ (str "a@temp.com")).1 = true := by decide
example : (isTempEmail ⟨none, none, none, [], none⟩ (str "a@temp.com")).1 = false := by decide

/-! ## Claims -/

/-- Claim C1, counterexample: with only `example.com` inserted, the query
`example.com.evil` is neither inserted nor has any inserted label-suffix
ancestor, yet `hasDomain` returns true — the offset loop also matches
inserted domains occurring as non-suffix label blocks. -/
theorem C1_counterexample :
    DomainTrie.hasDomain (DomainTrie.fromDomains [str "example.com"])
      (str "example.com.evil") = true ∧
    (str "example.com.evil") ∉ [str "example.com"] ∧
    ((splitDot (lower (str "example.com"))).isSuffixOf
      (splitDot (lower (str "example.com.evil"))) = false) :=
  ⟨by decide, by decide, by decide⟩

/-- Claim C1 (amended): for every query domain D such that no inserted
domain's lowercased label sequence occurs as a contiguous block inside D's
lowercased label sequence, `hasDomain` returns false; in particular the
spec's three example queries still return false. -/
theorem C1_theorem (ds : List (List Char)) (D : List Char)
    (h : ∀ x ∈ ds, ¬ (splitDot (lower x) <:+: splitDot (lower D))) :
    DomainTrie.hasDomain (DomainTrie.fromDomains ds) D = false := by
  cases hb : DomainTrie.hasDomain (DomainTrie.fromDomains ds) D with
  | false => rfl
  | true =>
    rw [hasDomain_iff] at hb
    obtain ⟨x, hx, hinf⟩ := hb
    exact absurd hinf (h x hx)

/-- Witness for C1: the spec's three example non-matches with only
`example.com` inserted. -/
theorem C1_witness :
    DomainTrie.hasDomain (DomainTrie.fromDomains [str "example.com"])
      (str "notexample.com") = false ∧
    DomainTrie.hasDomain (DomainTrie.fromDomains [str "example.com"])
      (str "example") = false ∧
    DomainTrie.hasDomain (DomainTrie.fromDomains [str "example.com"])
      (str "com") = false :=
  ⟨C1_theorem _ _ (by decide), C1_theorem _ _ (by decide), C1_theorem _ _ (by decide)⟩

/-- Claim C2, counterexample: the input `a@b.` passes the claim's prose
structural check (exactly one `@`, nonempty local part, nonempty domain part
containing a `.`), yet `validateEmail` reports "Invalid email format",
because `EMAIL_REGEX` additionally requires a nonempty run after the dot. -/
theorem C2_counterexample :
    specStructuralOk (str "a@b.") = true ∧
    (validateEmail ⟨none, none, none, [], none⟩ (str "a@b.")).1
      = ⟨false, false, some "Invalid email format"⟩ :=
  ⟨by decide, by decide⟩

/-- Claim C2 (amended): for every nonempty input, `validateEmail` returns
`{isValid := false, isTempEmail := false, error := "Invalid email format"}`
exactly when the input fails the `EMAIL_REGEX` structural check (no
whitespace and no second `@` anywhere, nonempty local part, and a dot in the
domain part with at least one character before and after it); every input
passing that check is reported valid. -/
theorem C2_theorem (st : GuardState) (s : List Char) (h : s ≠ []) :
    ((validateEmail st s).1 = ⟨false, false, some "Invalid email format"⟩ ↔ ¬ RegexSpec s) ∧
    (RegexSpec s → (validateEmail st s).1.isValid = true) := by
  have he : s.isEmpty = false := by simp [h]
  by_cases hb : EMAIL_REGEX_test s = true
  · have hspec := (EMAIL_REGEX_iff s).mp hb
    have hval : (validateEmail st s).1.isValid = true := by
      unfold validateEmail
      simp [he, hb]
    constructor
    · constructor
      · intro hv
        rw [hv] at hval
        simp at hval
      · intro hnr
        exact absurd hspec hnr
    · intro _
      exact hval
  · have hnr : ¬ RegexSpec s := fun hr => hb ((EMAIL_REGEX_iff s).mpr hr)
    have hv : (validateEmail st s).1 = ⟨false, false, some "Invalid email format"⟩ := by
      unfold validateEmail
      simp [he, hb]
    exact ⟨⟨fun _ => hnr, fun _ => hv⟩, fun hr => absurd hr hnr⟩

/-- Witness for C2: the amended statement instantiated at `a@b` (which fails
the structural check since its domain part has no dot). -/
theorem C2_witness :
    ((validateEmail ⟨none, none, none, [], none⟩ (str "a@b")).1
        = ⟨false, false, some "Invalid email format"⟩ ↔ ¬ RegexSpec (str "a@b")) ∧
    (RegexSpec (str "a@b") →
      (validateEmail ⟨none, none, none, [], none⟩ (str "a@b")).1.isValid = true) :=
  C2_theorem _ _ (by decide)

/-- Claim C3: for every inserted domain D and every nonempty label prefix P,
`hasDomain (P ++ "." ++ D)` returns true. -/
theorem C3_theorem (ds : List (List Char)) (D P : List Char)
    (hD : D ∈ ds) (_hP : P ≠ []) :
    DomainTrie.hasDomain (DomainTrie.fromDomains ds) (P ++ '.' :: D) = true := by
  rw [hasDomain_iff]
  refine ⟨D, hD, ?_⟩
  have hdot : Char.toLower '.' = '.' := by decide
  have hl : lower (P ++ '.' :: D) = lower P ++ '.' :: lower D := by
    simp [lower, hdot]
  rw [hl, splitDot_append_dot]
  exact ⟨splitDot (lower P), [], by simp⟩

/-- Witness for C3: `sub.example.com` matches with `example.com` inserted. -/
theorem C3_witness :
    DomainTrie.hasDomain (DomainTrie.fromDomains [str "example.com"])
      (str "sub" ++ '.' :: str "example.com") = true :=
  C3_theorem _ _ _ (by decide) (by decide)

/-- Claim C4: every domain D of the sequence delivered by the loader's merge
phase is found by the trie (`hasDomain D = true`) and is in the exact-match
accelerator set after canonical lowercasing. -/
theorem C4_theorem (sources : List (List (List Char))) (l : List (List Char))
    (st : GuardState) (D : List Char)
    (h : fetchDomains sources = Except.ok l) (hD : D ∈ l) :
    DomainTrie.hasDomain (DomainTrie.fromDomains l) D = true ∧
    acceleratedSetHas (initializeDomains st l) (lower D) = true := by
  constructor
  · rw [hasDomain_iff]
    exact ⟨D, hD, [], [], by simp⟩
  · have hfix := fetchDomains_lower_fixed sources l h D hD
    show l.contains (lower D) = true
    rw [hfix]
    show List.elem D l = true
    exact List.elem_iff.mpr hD

/-- Witness for C4: a one-source load of `temp.com`. -/
theorem C4_witness :
    DomainTrie.hasDomain (DomainTrie.fromDomains [str "temp.com"]) (str "temp.com") = true ∧
    acceleratedSetHas (initializeDomains ⟨none, none, none, [], none⟩ [str "temp.com"])
      (lower (str "temp.com")) = true :=
  C4_theorem [[str "temp.com"]] [str "temp.com"] _ _ (by rfl) (by decide)

/-- Claim C5, counterexample: with the Index and Accelerator not yet built
but the loader cache populated, `isTempEmail` does not return false — it
lazily builds the structures from the loader cache and returns the real
verdict. -/
theorem C5_counterexample :
    (⟨none, none, none, [], some [str "temp.com"]⟩ : GuardState).tempSet = none ∧
    (⟨none, none, none, [], some [str "temp.com"]⟩ : GuardState).tempTrie = none ∧
    (isTempEmail ⟨none, none, none, [], some [str "temp.com"]⟩ (str "a@temp.com")).1 = true :=
  ⟨rfl, rfl, by decide⟩

/-- Claim C5 (amended): for every input string, calling `isTempEmail` before
the Index and Accelerator have been built returns false and leaves the state
unchanged, provided the loader's domain cache is also still empty. -/
theorem C5_theorem (st : GuardState) (email : List Char)
    (h1 : st.tempSet = none) (h2 : st.tempTrie = none) (h3 : st.cachedDomains = none) :
    isTempEmail st email = (false, st) := by
  by_cases he : email.isEmpty
  · simp [isTempEmail, he]
  · simp [isTempEmail, he, h1, h2, h3]

/-- Witness for C5: a fully uninitialized state. -/
theorem C5_witness :
    isTempEmail ⟨none, none, none, [], none⟩ (str "a@b.com")
      = (false, ⟨none, none, none, [], none⟩) :=
  C5_theorem _ _ rfl rfl rfl

/-- Claim C6: the recency cache never exceeds its bound of 1000 entries after
any sequence of lookup/put operations, and a put at capacity evicts exactly
the single oldest-inserted entry before inserting. -/
theorem C6_theorem :
    (∀ ops : List CacheOp, (applyCacheOps [] ops).length ≤ MAX_CACHE_SIZE) ∧
    (∀ (cache : List (List Char × Bool)) (d : List Char) (r : Bool),
      cache.length = MAX_CACHE_SIZE →
        cacheResult cache d r = mapSet (cache.drop 1) d r ∧
        (cacheResult cache d r).length ≤ MAX_CACHE_SIZE) := by
  constructor
  · intro ops
    exact applyCacheOps_length_le ops [] (by simp)
  · intro cache d r h
    constructor
    · show mapSet (if MAX_CACHE_SIZE ≤ cache.length then cache.drop 1 else cache) d r
        = mapSet (cache.drop 1) d r
      rw [if_pos (le_of_eq h.symm)]
    · exact cacheResult_length_le cache d r (le_of_eq h)

/-- Witness for C6: a put sequence from empty, and a put on a full cache. -/
theorem C6_witness :
    (applyCacheOps [] [CacheOp.put (str "a.com") true]).length ≤ MAX_CACHE_SIZE ∧
    (cacheResult (List.replicate MAX_CACHE_SIZE ([], true)) (str "a.com") true
        = mapSet ((List.replicate MAX_CACHE_SIZE ([], true)).drop 1) (str "a.com") true ∧
      (cacheResult (List.replicate MAX_CACHE_SIZE ([], true)) (str "a.com") true).length
        ≤ MAX_CACHE_SIZE) :=
  ⟨C6_theorem.1 _, C6_theorem.2 _ _ _ (by simp)⟩

/-- Claim C7: `hasDomain` returns true if and only if the lowercased label
sequence of some inserted domain occurs as a contiguous block anywhere within
the query's lowercased label sequence — not only as a suffix, as the example
`example.com.evil` (insert `example.com`) shows. -/
theorem C7_theorem :
    (∀ (ds : List (List Char)) (d : List Char),
      DomainTrie.hasDomain (DomainTrie.fromDomains ds) d = true ↔
        ∃ x ∈ ds, splitDot (lower x) <:+: splitDot (lower d)) ∧
    DomainTrie.hasDomain (DomainTrie.fromDomains [str "example.com"])
      (str "example.com.evil") = true :=
  ⟨hasDomain_iff, by decide⟩

/-- Claim C8: with the Index and Accelerator built, two consecutive
`isTempEmail` calls with the same email return the same verdict and neither
call modifies the Index or the Accelerator (only the recency cache may
change). -/
theorem C8_theorem (st : GuardState) (email : List Char)
    (S : List (List Char)) (T : TrieNode)
    (hS : st.tempSet = some S) (hT : st.tempTrie = some T) :
    (isTempEmail (isTempEmail st email).2 email).1 = (isTempEmail st email).1 ∧
    (isTempEmail st email).2.tempSet = st.tempSet ∧
    (isTempEmail st email).2.tempTrie = st.tempTrie ∧
    (isTempEmail (isTempEmail st email).2 email).2.tempSet = st.tempSet ∧
    (isTempEmail (isTempEmail st email).2 email).2.tempTrie = st.tempTrie := by
  by_cases he : email.isEmpty
  · simp [isTempEmail, he]
  · have h1 : isTempEmail st email = isTempEmailBody st S T email := by
      simp [isTempEmail, he, hS, hT]
    have hframe := isTempEmailBody_frame st S T email
    have hS1 : (isTempEmailBody st S T email).2.tempSet = some S := by rw [hframe.1, hS]
    have hT1 : (isTempEmailBody st S T email).2.tempTrie = some T := by rw [hframe.2.1, hT]
    have h2 : isTempEmail (isTempEmailBody st S T email).2 email
        = isTempEmailBody (isTempEmailBody st S T email).2 S T email := by
      simp [isTempEmail, he, hS1, hT1]
    have hframe2 := isTempEmailBody_frame (isTempEmailBody st S T email).2 S T email
    rw [h1, h2]
    refine ⟨isTempEmailBody_repeat st S T email, hframe.1, hframe.2.1, ?_, ?_⟩
    · rw [hframe2.1, hframe.1]
    · rw [hframe2.2.1, hframe.2.1]

/-- Witness for C8: a built single-domain state queried twice. -/
theorem C8_witness :
    (isTempEmail (isTempEmail ⟨some [str "temp.com"],
        some (DomainTrie.fromDomains [str "temp.com"]), some [str "temp.com"], [], none⟩
        (str "a@temp.com")).2 (str "a@temp.com")).1
      = (isTempEmail ⟨some [str "temp.com"],
        some (DomainTrie.fromDomains [str "temp.com"]), some [str "temp.com"], [], none⟩
        (str "a@temp.com")).1 ∧
    (isTempEmail ⟨some [str "temp.com"],
        some (DomainTrie.fromDomains [str "temp.com"]), some [str "temp.com"], [], none⟩
        (str "a@temp.com")).2.tempSet = some [str "temp.com"] ∧
    (isTempEmail ⟨some [str "temp.com"],
        some (DomainTrie.fromDomains [str "temp.com"]), some [str "temp.com"], [], none⟩
        (str "a@temp.com")).2.tempTrie
      = some (DomainTrie.fromDomains [str "temp.com"]) := by
  have h := C8_theorem ⟨some [str "temp.com"],
      some (DomainTrie.fromDomains [str "temp.com"]), some [str "temp.com"], [], none⟩
      (str "a@temp.com") [str "temp.com"] (DomainTrie.fromDomains [str "temp.com"]) rfl rfl
  exact ⟨h.1, h.2.1, h.2.2.1⟩

/-- Claim C9: initialization fails with the distinct error exactly when the
merged, validated domain sequence supplied by the sources is empty; with a
nonempty sequence it succeeds and marks the Index and Accelerator ready. -/
theorem C9_theorem (sources : List (List (List Char))) (st : GuardState) :
    (initializeFromSources st sources
        = Except.error "No domains could be loaded from any source"
      ↔ mergedValidated sources = []) ∧
    (mergedValidated sources ≠ [] →
      ∃ st', initializeFromSources st sources = Except.ok st' ∧
        st'.tempSet = some (sortStrings (mergedValidated sources)) ∧
        st'.tempTrie = some (DomainTrie.fromDomains (sortStrings (mergedValidated sources)))) := by
  by_cases hemp : (sortStrings (mergedValidated sources)).isEmpty = true
  · have hms : mergedValidated sources = [] := by
      rw [List.isEmpty_eq_true, sortStrings_eq_nil_iff] at hemp
      exact hemp
    have hfd : fetchDomains sources
        = Except.error "No domains could be loaded from any source" := by
      unfold fetchDomains
      simp [hemp]
    constructor
    · constructor
      · intro _
        exact hms
      · intro _
        unfold initializeFromSources
        rw [hfd]
    · intro hne
      exact absurd hms hne
  · have hms : mergedValidated sources ≠ [] := by
      intro hnil
      rw [List.isEmpty_eq_true, sortStrings_eq_nil_iff] at hemp
      exact hemp hnil
    have hfd : fetchDomains sources = Except.ok (sortStrings (mergedValidated sources)) := by
      unfold fetchDomains
      simp [hemp]
    constructor
    · constructor
      · intro herr
        unfold initializeFromSources at herr
        rw [hfd] at herr
        cases herr
      · intro hnil
        exact absurd hnil hms
    · intro _
      refine ⟨initializeDomains
          { st with cachedDomains := some (sortStrings (mergedValidated sources)) }
          (sortStrings (mergedValidated sources)), ?_, rfl, rfl⟩
      unfold initializeFromSources
      rw [hfd]

/-- Witness for C9: a nonempty source succeeds and marks ready; an
all-invalid source yields the distinct error. -/
theorem C9_witness :
    (∃ st', initializeFromSources ⟨none, none, none, [], none⟩ [[str "temp.com"]]
        = Except.ok st' ∧
      st'.tempSet = some (sortStrings (mergedValidated [[str "temp.com"]])) ∧
      st'.tempTrie = some (DomainTrie.fromDomains (sortStrings (mergedValidated [[str "temp.com"]])))) ∧
    (initializeFromSources ⟨none, none, none, [], none⟩ [[str "##"]]
      = Except.error "No domains could be loaded from any source") :=
  ⟨(C9_theorem [[str "temp.com"]] _).2 (by decide),
   (C9_theorem [[str "##"]] _).1.mpr (by decide)⟩

/-- Claim C10: two query (or insert) arguments that agree after lowercasing
produce identical results, whether the case variation occurs at insert time
or query time. -/
theorem C10_theorem (t : TrieNode) (d₁ d₂ : List Char) (h : lower d₁ = lower d₂) :
    DomainTrie.hasDomain t d₁ = DomainTrie.hasDomain t d₂ ∧
    DomainTrie.insert t d₁ = DomainTrie.insert t d₂ := by
  unfold DomainTrie.hasDomain DomainTrie.insert
  rw [h]
  exact ⟨rfl, rfl⟩

/-- Witness for C10: `contains("Example.COM") == contains("example.com")` and
the same at insert time. -/
theorem C10_witness :
    DomainTrie.hasDomain (DomainTrie.fromDomains [str "example.com"]) (str "Example.COM")
      = DomainTrie.hasDomain (DomainTrie.fromDomains [str "example.com"]) (str "example.com") ∧
    DomainTrie.insert emptyNode (str "Example.COM")
      = DomainTrie.insert emptyNode (str "example.com") :=
  ⟨(C10_theorem _ _ _ (by decide)).1, (C10_theorem _ _ _ (by decide)).2⟩
